import Mathlib

/-!
Verification of the fin-part-ord library: two representations of finite
partial orders, PairPartOrd (src/pairs.rs) and DagPartOrd (src/dag.rs),
sharing the FinPartOrd trait (src/trait.rs).

Rust recursion that has no structural termination argument
(PairPartOrd::lt, and everything that calls it) is embedded with an
explicit fuel parameter: the result none means the computation did not
finish within fuel nested calls.  The actual Rust call returns a value v
exactly when the embedded function returns some v for some fuel (results
are monotone in fuel), and the Rust call diverges exactly when the
embedded function returns none for every fuel.

Everything that is executable in the source is an executable definition
here; reachability facts used in proofs live in the inductive predicates
Reach and Chases.
-/

namespace FinPartOrd

section Graph

variable {α : Type}

/-- Reflexive-transitive reachability along a list of directed edges. -/
inductive Reach (es : List (α × α)) : α → α → Prop
  | refl (a : α) : Reach es a a
  | head {a b c : α} : (a, b) ∈ es → Reach es b c → Reach es a c

/-- Reachability by a nonempty chain of edges: the relation that
PairPartOrd::lt searches for. -/
inductive Chases (es : List (α × α)) : α → α → Prop
  | found {a b : α} : (a, b) ∈ es → Chases es a b
  | step {a b c : α} : (a, b) ∈ es → Chases es b c → Chases es a c

/-- An edge list is acyclic when no element reaches itself through a
nonempty chain of edges. -/
def Acyclic (es : List (α × α)) : Prop := ∀ v, ¬ Chases es v v

theorem reach_trans {es : List (α × α)} {a b c : α}
    (hab : Reach es a b) (hbc : Reach es b c) : Reach es a c := by
  induction hab with
  | refl => exact hbc
  | head he _ ih => exact Reach.head he (ih hbc)

theorem chases_trans {es : List (α × α)} {a b c : α}
    (hab : Chases es a b) (hbc : Chases es b c) : Chases es a c := by
  induction hab with
  | found he => exact Chases.step he hbc
  | step he _ ih => exact Chases.step he (ih hbc)

theorem Chases.to_reach {es : List (α × α)} {a b : α}
    (h : Chases es a b) : Reach es a b := by
  induction h with
  | found he => exact Reach.head he (Reach.refl _)
  | step he _ ih => exact Reach.head he ih

theorem reach_iff {es : List (α × α)} {a b : α} :
    Reach es a b ↔ a = b ∨ Chases es a b := by
  constructor
  · intro h
    induction h with
    | refl => exact Or.inl rfl
    | head he _ ih =>
      rcases ih with rfl | hc
      · exact Or.inr (Chases.found he)
      · exact Or.inr (Chases.step he hc)
  · rintro (rfl | hc)
    · exact Reach.refl _
    · exact hc.to_reach

theorem chases_iff {es : List (α × α)} {a b : α} :
    Chases es a b ↔ ∃ p ∈ es, p.1 = a ∧ (p.2 = b ∨ Chases es p.2 b) := by
  constructor
  · intro h
    cases h with
    | found he => exact ⟨_, he, rfl, Or.inl rfl⟩
    | step he hc => exact ⟨_, he, rfl, Or.inr hc⟩
  · rintro ⟨⟨x, y⟩, hp, rfl, rfl | hc⟩
    · exact Chases.found hp
    · exact Chases.step hp hc

theorem chases_mono {es es' : List (α × α)} {a b : α}
    (hsub : ∀ p, p ∈ es → p ∈ es') (h : Chases es a b) : Chases es' a b := by
  induction h with
  | found he => exact Chases.found (hsub _ he)
  | step he _ ih => exact Chases.step (hsub _ he) ih

theorem reach_mono {es es' : List (α × α)} {a b : α}
    (hsub : ∀ p, p ∈ es → p ∈ es') (h : Reach es a b) : Reach es' a b := by
  induction h with
  | refl => exact Reach.refl _
  | head he _ ih => exact Reach.head (hsub _ he) ih

theorem chases_source_mem {es : List (α × α)} {a b : α}
    (h : Chases es a b) : ∃ p ∈ es, p.1 = a := by
  cases h with
  | found he => exact ⟨_, he, rfl⟩
  | step he _ => exact ⟨_, he, rfl⟩

theorem chases_target_mem {es : List (α × α)} {a b : α}
    (h : Chases es a b) : ∃ p ∈ es, p.2 = b := by
  induction h with
  | found he => exact ⟨_, he, rfl⟩
  | step _ _ ih => exact ih

theorem edge_reach_chases {es : List (α × α)} {a m b : α}
    (he : (a, m) ∈ es) (hr : Reach es m b) : Chases es a b := by
  rcases reach_iff.mp hr with rfl | hc
  · exact Chases.found he
  · exact Chases.step he hc

theorem chases_elim {es : List (α × α)} {a b : α} (h : Chases es a b) :
    ∃ m, (a, m) ∈ es ∧ Reach es m b := by
  cases h with
  | found he => exact ⟨_, he, Reach.refl _⟩
  | step he hc => exact ⟨_, he, hc.to_reach⟩

/-- Decomposition of reachability after appending a single edge. -/
theorem reach_append_singleton {es : List (α × α)} {a b u v : α}
    (h : Reach (es ++ [(a, b)]) u v) :
    Reach es u v ∨ (Reach es u a ∧ Reach es b v) := by
  induction h with
  | refl => exact Or.inl (Reach.refl _)
  | head he _ ih =>
    rcases List.mem_append.mp he with he' | he'
    · rcases ih with h1 | ⟨h1, h2⟩
      · exact Or.inl (Reach.head he' h1)
      · exact Or.inr ⟨Reach.head he' h1, h2⟩
    · simp only [List.mem_singleton, Prod.mk.injEq] at he'
      obtain ⟨rfl, rfl⟩ := he'
      rcases ih with h1 | ⟨h1, h2⟩
      · exact Or.inr ⟨Reach.refl _, h1⟩
      · exact Or.inr ⟨Reach.refl _, h2⟩

theorem reach_snoc {es : List (α × α)} {a b c : α}
    (h : Reach es a b) (he : (b, c) ∈ es) : Reach es a c :=
  reach_trans h (Reach.head he (Reach.refl _))

/-- Appending an edge whose reverse direction is unreachable preserves
acyclicity. -/
theorem acyclic_append {es : List (α × α)} {a b : α}
    (hac : Acyclic es) (hba : ¬ Reach es b a) : Acyclic (es ++ [(a, b)]) := by
  intro v hv
  obtain ⟨m, hm, hr⟩ := chases_elim hv
  rcases List.mem_append.mp hm with hm' | hm'
  · rcases reach_append_singleton hr with h1 | ⟨h1, h2⟩
    · exact hac v (edge_reach_chases hm' h1)
    · exact hba (reach_trans (reach_snoc h2 hm') h1)
  · simp only [List.mem_singleton, Prod.mk.injEq] at hm'
    obtain ⟨rfl, rfl⟩ := hm'
    rcases reach_append_singleton hr with h1 | ⟨h1, _⟩
    · exact hba h1
    · exact hba h1

/-- Upper bound on the depth of any outgoing chain from a vertex. -/
inductive DepthBound (es : List (α × α)) : α → Nat → Prop
  | mk {v : α} {n : Nat}
      (hpos : ∀ w, (v, w) ∈ es → 0 < n)
      (h : ∀ w, (v, w) ∈ es → DepthBound es w (n - 1)) :
      DepthBound es v n

theorem depthBound_mono {es : List (α × α)} {v : α} {n m : Nat}
    (h : DepthBound es v n) (hnm : n ≤ m) : DepthBound es v m := by
  induction h generalizing m with
  | mk hpos _ ih =>
    exact DepthBound.mk
      (fun w hw => lt_of_lt_of_le (hpos w hw) hnm)
      (fun w hw => ih w hw (by omega))

/-- Over an acyclic edge list, every vertex has chain depth at most the
number of edges. -/
theorem depthBound_of_acyclic [DecidableEq α] {es : List (α × α)}
    (hac : Acyclic es) (v : α) : DepthBound es v es.length := by
  classical
  set S : α → Finset α :=
    fun x => ((es.map Prod.fst).toFinset).filter (fun s => Reach es x s) with hS
  have hcard : ∀ x, (S x).card ≤ es.length := by
    intro x
    calc (S x).card ≤ (es.map Prod.fst).toFinset.card := Finset.card_filter_le _ _
      _ ≤ (es.map Prod.fst).length := (es.map Prod.fst).toFinset_card_le
      _ = es.length := List.length_map _ _
  have main : ∀ k x, (S x).card < k → DepthBound es x (S x).card := by
    intro k
    induction k with
    | zero => intro x hx; omega
    | succ k ih =>
      intro x hx
      have key : ∀ w, (x, w) ∈ es → (S w).card < (S x).card := by
        intro w hw
        have hsub : S w ⊆ S x := by
          intro s hs
          rw [hS] at hs ⊢
          simp only [Finset.mem_filter] at hs ⊢
          exact ⟨hs.1, Reach.head hw hs.2⟩
        have hxmem : x ∈ S x := by
          rw [hS]
          simp only [Finset.mem_filter]
          refine ⟨?_, Reach.refl _⟩
          rw [List.mem_toFinset]
          exact List.mem_map.mpr ⟨(x, w), hw, rfl⟩
        have hxnot : x ∉ S w := by
          rw [hS]
          simp only [Finset.mem_filter]
          rintro ⟨-, hr⟩
          exact hac x (edge_reach_chases hw hr)
        exact Finset.card_lt_card
          ((Finset.ssubset_iff_of_subset hsub).mpr ⟨x, hxmem, hxnot⟩)
      refine DepthBound.mk (fun w hw => lt_of_le_of_lt (Nat.zero_le _) (key w hw))
        (fun w hw => ?_)
      have hlt := key w hw
      exact depthBound_mono (ih w (by omega)) (by omega)
  have := main ((S v).card + 1) v (Nat.lt_succ_self _)
  exact depthBound_mono this (hcard v)

/-- Fuel-bounded reachability: reachability by a path with at most the
given number of edges. -/
def reachN [DecidableEq α] (es : List (α × α)) : Nat → α → α → Bool
  | 0, a, b => a == b
  | n + 1, a, b => a == b || es.any (fun e => e.1 == a && reachN es n e.2 b)

theorem reachN_refl [DecidableEq α] (es : List (α × α)) (n : Nat) (a : α) :
    reachN es n a a = true := by
  cases n <;> simp [reachN]

theorem reachN_succ [DecidableEq α] (es : List (α × α)) (n : Nat) (a b : α) :
    reachN es (n + 1) a b =
      (a == b || es.any fun e => e.1 == a && reachN es n e.2 b) := rfl

theorem reachN_succ_of_reachN [DecidableEq α] {es : List (α × α)} {n : Nat}
    {a b : α} (h : reachN es n a b = true) : reachN es (n + 1) a b = true := by
  induction n generalizing a with
  | zero =>
    simp only [reachN] at h
    rw [reachN_succ]
    simp [h]
  | succ n ih =>
    rw [reachN_succ] at h
    rw [reachN_succ]
    simp only [Bool.or_eq_true, List.any_eq_true, Bool.and_eq_true] at h ⊢
    rcases h with h | ⟨e, he, h1, h2⟩
    · exact Or.inl h
    · exact Or.inr ⟨e, he, h1, ih h2⟩

theorem reachN_mono [DecidableEq α] {es : List (α × α)} {n m : Nat} {a b : α}
    (hnm : n ≤ m) (h : reachN es n a b = true) : reachN es m a b = true := by
  induction hnm with
  | refl => exact h
  | step _ ih => exact reachN_succ_of_reachN ih

theorem reachN_sound [DecidableEq α] {es : List (α × α)} {n : Nat} {a b : α}
    (h : reachN es n a b = true) : Reach es a b := by
  induction n generalizing a with
  | zero =>
    simp only [reachN, beq_iff_eq] at h
    exact h ▸ Reach.refl _
  | succ n ih =>
    simp only [reachN, Bool.or_eq_true, beq_iff_eq, List.any_eq_true,
      Bool.and_eq_true] at h
    rcases h with rfl | ⟨e, he, h1, h2⟩
    · exact Reach.refl _
    · have h1' : e.1 = a := by simpa using h1
      exact Reach.head (h1' ▸ (show (e.1, e.2) ∈ es by simpa using he)) (ih h2)

theorem reachN_complete [DecidableEq α] {es : List (α × α)} {n : Nat}
    {a b : α} (hdb : DepthBound es a n) (hr : Reach es a b) :
    reachN es n a b = true := by
  induction hr generalizing n with
  | refl => exact reachN_refl es n _
  | head he _ ih =>
    cases hdb with
    | mk hpos f =>
      have hw := ih (f _ he)
      have hn : 0 < n := hpos _ he
      obtain ⟨n', rfl⟩ : ∃ n', n = n' + 1 := ⟨n - 1, by omega⟩
      rw [reachN_succ]
      simp only [Bool.or_eq_true, List.any_eq_true, Bool.and_eq_true]
      exact Or.inr ⟨_, he, by simp, by simpa using hw⟩

end Graph

section GraphMentioned

variable {α : Type}

/-- Element x occurs as an endpoint of one of the given pairs. -/
def MentionedIn (l : List (α × α)) (x : α) : Prop := ∃ p ∈ l, p.1 = x ∨ p.2 = x

theorem chases_mentioned_left {es : List (α × α)} {a b : α}
    (h : Chases es a b) : MentionedIn es a := by
  obtain ⟨p, hp, hp1⟩ := chases_source_mem h
  exact ⟨p, hp, Or.inl hp1⟩

theorem chases_mentioned_right {es : List (α × α)} {a b : α}
    (h : Chases es a b) : MentionedIn es b := by
  obtain ⟨p, hp, hp2⟩ := chases_target_mem h
  exact ⟨p, hp, Or.inr hp2⟩

end GraphMentioned

instance {ε α : Type} [DecidableEq ε] [DecidableEq α] :
    DecidableEq (Except ε α) := fun x y =>
  match x, y with
  | Except.ok a, Except.ok b =>
    if h : a = b then isTrue (h ▸ rfl)
    else isFalse fun hc => h (Except.ok.inj hc)
  | Except.error a, Except.error b =>
    if h : a = b then isTrue (h ▸ rfl)
    else isFalse fun hc => h (Except.error.inj hc)
  | Except.ok _, Except.error _ => isFalse fun hc => Except.noConfusion hc
  | Except.error _, Except.ok _ => isFalse fun hc => Except.noConfusion hc

/-- Error type of the pair representation (struct AntisymmetryError in
pairs.rs). -/
inductive AntisymmetryError : Type
  | mk
deriving DecidableEq

/-- A finite partial order stored as the vector of declared pairs (struct
PairPartOrd in pairs.rs).  Pair { lo, hi } is embedded as (lo, hi); Vec
push appends on the right. -/
structure PairPartOrd (T : Type) where
  pairs : List (T × T)
deriving DecidableEq

section Pairs

variable {T : Type} [DecidableEq T]

/-- Loop body of PairPartOrd::lt: scan the list l for a pair whose lo
component matches, succeeding on an exact match and otherwise chasing via
the recursive call recur. -/
def ltScan (recur : T → T → Option Bool) (lo hi : T) :
    List (T × T) → Option Bool
  | [] => some false
  | p :: rest =>
    if p.1 = lo then
      if p.2 = hi then some true
      else
        match recur p.2 hi with
        | none => none
        | some true => some true
        | some false => ltScan recur lo hi rest
    else ltScan recur lo hi rest

/-- PairPartOrd::lt over the pair list ps.  The fuel counts nested
recursive invocations of lt; none means the Rust recursion has not
finished within that depth.  The Rust method never returns Err, so a
finished computation is some b. -/
def ltFuel (ps : List (T × T)) : Nat → T → T → Option Bool
  | 0, _, _ => none
  | fuel + 1, lo, hi => ltScan (ltFuel ps fuel) lo hi ps

/-- Loop of PairPartOrd::check over the stored pairs (fuel is passed to
the embedded lt calls). -/
def checkScan (ps : List (T × T)) (fuel : Nat) : List (T × T) → Option Bool
  | [] => some true
  | p :: rest =>
    if p.1 = p.2 then some false
    else
      match ltFuel ps fuel p.1 p.1 with
      | none => none
      | some true => some false
      | some false =>
        match ltFuel ps fuel p.2 p.2 with
        | none => none
        | some true => some false
        | some false => checkScan ps fuel rest

/-- PairPartOrd::empty. -/
def PairPartOrd.empty : PairPartOrd T := ⟨[]⟩

/-- PairPartOrd::lt. -/
def PairPartOrd.lt (s : PairPartOrd T) (lo hi : T) (fuel : Nat) :
    Option Bool :=
  ltFuel s.pairs fuel lo hi

/-- PairPartOrd::check.  The Rust method returns Result, but the question
mark operator on lt can never propagate an error, so a finished run is
some b. -/
def PairPartOrd.check (s : PairPartOrd T) (fuel : Nat) : Option Bool :=
  checkScan s.pairs fuel s.pairs

/-- PairPartOrd::valid, which is check().unwrap_or(false); since check
never returns Err, this equals check whenever it finishes. -/
def PairPartOrd.valid (s : PairPartOrd T) (fuel : Nat) : Option Bool :=
  s.check fuel

/-- PairPartOrd::add: elide self-pairs, push the pair, then revalidate the
whole instance; on a failed validation report AntisymmetryError (the Rust
add consumes self, so no state is returned on error). -/
def PairPartOrd.add (s : PairPartOrd T) (lo hi : T) (fuel : Nat) :
    Option (Except AntisymmetryError (PairPartOrd T)) :=
  if lo = hi then some (Except.ok s)
  else
    match PairPartOrd.valid ⟨s.pairs ++ [(lo, hi)]⟩ fuel with
    | none => none
    | some true => some (Except.ok ⟨s.pairs ++ [(lo, hi)]⟩)
    | some false => some (Except.error AntisymmetryError.mk)

/-- Default method FinPartOrd::le from trait.rs: equal elements compare
as true without consulting lt. -/
def PairPartOrd.le (s : PairPartOrd T) (lo hi : T) (fuel : Nat) :
    Option Bool :=
  if lo = hi then some true else s.lt lo hi fuel

/-- Fold of PairPartOrd::add over a list of declared pairs, all calls
sharing one fuel bound. -/
def PairPartOrd.addAll (fuel : Nat) :
    PairPartOrd T → List (T × T) →
      Option (Except AntisymmetryError (PairPartOrd T))
  | s, [] => some (Except.ok s)
  | s, p :: rest =>
    match s.add p.1 p.2 fuel with
    | none => none
    | some (Except.ok s') => PairPartOrd.addAll fuel s' rest
    | some (Except.error e) => some (Except.error e)

/-- States of PairPartOrd reachable from empty by the recorded sequence of
successful add calls. -/
inductive PairPartOrd.ReachableVia :
    List (T × T) → PairPartOrd T → Prop
  | nil : PairPartOrd.ReachableVia [] PairPartOrd.empty
  | snoc {tr : List (T × T)} {s s' : PairPartOrd T} {lo hi : T}
      (h : PairPartOrd.ReachableVia tr s)
      (hadd : ∃ n, s.add lo hi n = some (Except.ok s')) :
      PairPartOrd.ReachableVia (tr ++ [(lo, hi)]) s'

/-- A PairPartOrd state reachable from empty by successful add calls. -/
def PairPartOrd.Reachable (s : PairPartOrd T) : Prop :=
  ∃ tr, PairPartOrd.ReachableVia tr s

theorem ltScan_congr {T : Type} [DecidableEq T] {r1 r2 : T → T → Option Bool}
    (h : ∀ x y b, r1 x y = some b → r2 x y = some b) (lo hi : T) :
    ∀ (l : List (T × T)) (b : Bool),
      ltScan r1 lo hi l = some b → ltScan r2 lo hi l = some b := by
  intro l
  induction l with
  | nil => intro b hb; exact hb
  | cons p rest ih =>
    intro b hb
    by_cases h1 : p.1 = lo
    · by_cases h2 : p.2 = hi
      · simpa [ltScan, if_pos h1, if_pos h2] using hb
      · simp only [ltScan, if_pos h1, if_neg h2] at hb ⊢
        cases hr : r1 p.2 hi with
        | none => rw [hr] at hb; simp at hb
        | some c =>
          rw [hr] at hb
          rw [h _ _ _ hr]
          cases c with
          | true => exact hb
          | false => exact ih b hb
    · simp only [ltScan, if_neg h1] at hb ⊢
      exact ih b hb

theorem ltFuel_succ_of {ps : List (T × T)} {n : Nat} {lo hi : T} {b : Bool}
    (h : ltFuel ps n lo hi = some b) : ltFuel ps (n + 1) lo hi = some b := by
  induction n generalizing lo hi b with
  | zero => simp [ltFuel] at h
  | succ n ih =>
    simp only [ltFuel] at h ⊢
    exact ltScan_congr (fun x y c hc => ih hc) lo hi ps b h

theorem ltFuel_mono {ps : List (T × T)} {n m : Nat} {lo hi : T} {b : Bool}
    (hnm : n ≤ m) (h : ltFuel ps n lo hi = some b) :
    ltFuel ps m lo hi = some b := by
  induction hnm with
  | refl => exact h
  | step _ ih => exact ltFuel_succ_of ih

theorem ltScan_chases {ps : List (T × T)} {n : Nat}
    (hrec : ∀ x y, ltFuel ps n x y = some true → Chases ps x y) :
    ∀ l, (∀ p, p ∈ l → p ∈ ps) → ∀ lo hi,
      ltScan (ltFuel ps n) lo hi l = some true → Chases ps lo hi := by
  intro l
  induction l with
  | nil => intro _ lo hi h; simp [ltScan] at h
  | cons p rest ih =>
    intro hsub lo hi h
    have hmem : p ∈ ps := hsub p (List.mem_cons_self p rest)
    have hrest : ∀ q, q ∈ rest → q ∈ ps :=
      fun q hq => hsub q (List.mem_cons_of_mem p hq)
    by_cases h1 : p.1 = lo
    · by_cases h2 : p.2 = hi
      · have hedge : (lo, hi) ∈ ps := by rw [← h1, ← h2]; exact hmem
        exact Chases.found hedge
      · simp only [ltScan, if_pos h1, if_neg h2] at h
        cases hr : ltFuel ps n p.2 hi with
        | none => rw [hr] at h; simp at h
        | some c =>
          rw [hr] at h
          cases c with
          | true =>
            have hedge : (lo, p.2) ∈ ps := by rw [← h1]; exact hmem
            exact Chases.step hedge (hrec _ _ hr)
          | false => exact ih hrest lo hi h
    · simp only [ltScan, if_neg h1] at h
      exact ih hrest lo hi h

theorem ltFuel_sound {ps : List (T × T)} :
    ∀ {n : Nat} {lo hi : T}, ltFuel ps n lo hi = some true →
      Chases ps lo hi := by
  intro n
  induction n with
  | zero => intro lo hi h; simp [ltFuel] at h
  | succ n ih =>
    intro lo hi h
    simp only [ltFuel] at h
    exact ltScan_chases (fun x y hx => ih hx) ps (fun p hp => hp) lo hi h

theorem ltScan_false {ps : List (T × T)} {n : Nat}
    (hrec : ∀ x y, ltFuel ps n x y = some false → ¬ Chases ps x y) :
    ∀ l lo hi, ltScan (ltFuel ps n) lo hi l = some false →
      ∀ p, p ∈ l → p.1 = lo → p.2 ≠ hi ∧ ¬ Chases ps p.2 hi := by
  intro l
  induction l with
  | nil => intro lo hi _ p hp; simp at hp
  | cons q rest ih =>
    intro lo hi h p hp hplo
    by_cases h1 : q.1 = lo
    · by_cases h2 : q.2 = hi
      · simp [ltScan, if_pos h1, if_pos h2] at h
      · simp only [ltScan, if_pos h1, if_neg h2] at h
        cases hr : ltFuel ps n q.2 hi with
        | none => rw [hr] at h; simp at h
        | some c =>
          rw [hr] at h
          cases c with
          | true => simp at h
          | false =>
            rcases List.mem_cons.mp hp with rfl | hp'
            · exact ⟨h2, hrec _ _ hr⟩
            · exact ih lo hi h p hp' hplo
    · simp only [ltScan, if_neg h1] at h
      rcases List.mem_cons.mp hp with rfl | hp'
      · exact absurd hplo h1
      · exact ih lo hi h p hp' hplo

theorem ltFuel_complete {ps : List (T × T)} :
    ∀ {n : Nat} {lo hi : T}, ltFuel ps n lo hi = some false →
      ¬ Chases ps lo hi := by
  intro n
  induction n with
  | zero => intro lo hi h; simp [ltFuel] at h
  | succ n ih =>
    intro lo hi h hc
    simp only [ltFuel] at h
    obtain ⟨p, hp, hp1, hcase⟩ := chases_iff.mp hc
    obtain ⟨hne, hnch⟩ := ltScan_false (fun x y hx => ih hx) ps _ _ h p hp hp1
    rcases hcase with h2 | h2
    · exact hne h2
    · exact hnch h2

theorem ltScan_isSome {ps : List (T × T)} {d : Nat} {lo : T}
    (hrec : ∀ w, (lo, w) ∈ ps → ∀ hi, (ltFuel ps d w hi).isSome) :
    ∀ l, (∀ p, p ∈ l → p ∈ ps) → ∀ hi,
      (ltScan (ltFuel ps d) lo hi l).isSome := by
  intro l
  induction l with
  | nil => intro _ hi; simp [ltScan]
  | cons p rest ih =>
    intro hsub hi
    have hmem : p ∈ ps := hsub p (List.mem_cons_self p rest)
    have hrest : ∀ q, q ∈ rest → q ∈ ps :=
      fun q hq => hsub q (List.mem_cons_of_mem p hq)
    by_cases h1 : p.1 = lo
    · by_cases h2 : p.2 = hi
      · simp [ltScan, if_pos h1, if_pos h2]
      · have hedge : (lo, p.2) ∈ ps := by rw [← h1]; exact hmem
        have hsome := hrec p.2 hedge hi
        cases hr : ltFuel ps d p.2 hi with
        | none => rw [hr] at hsome; simp at hsome
        | some c =>
          cases c with
          | true => simp [ltScan, if_pos h1, if_neg h2, hr]
          | false =>
            simp only [ltScan, if_pos h1, if_neg h2, hr]
            exact ih hrest hi
    · simp only [ltScan, if_neg h1]
      exact ih hrest hi

theorem ltFuel_isSome {ps : List (T × T)} :
    ∀ (d : Nat) (lo : T), DepthBound ps lo d → ∀ hi,
      (ltFuel ps (d + 1) lo hi).isSome := by
  intro d
  induction d using Nat.strong_induction_on with
  | _ d ih =>
    intro lo hdb hi
    cases hdb with
    | mk hpos hsucc =>
      show (ltScan (ltFuel ps d) lo hi ps).isSome
      refine ltScan_isSome ?_ ps (fun p hp => hp) hi
      intro w hw hi'
      have h0 : 0 < d := hpos w hw
      have := ih (d - 1) (by omega) w (hsucc w hw) hi'
      rwa [Nat.sub_add_cancel h0] at this

theorem ltFuel_total {ps : List (T × T)} (hac : Acyclic ps) (lo hi : T) :
    ∃ n b, ltFuel ps n lo hi = some b ∧ (b = true ↔ Chases ps lo hi) := by
  have hdb := depthBound_of_acyclic hac lo
  have hs := ltFuel_isSome ps.length lo hdb hi
  obtain ⟨b, hb⟩ := Option.isSome_iff_exists.mp hs
  refine ⟨ps.length + 1, b, hb, ?_⟩
  cases b with
  | true => exact iff_of_true rfl (ltFuel_sound hb)
  | false => exact iff_of_false (by simp) (ltFuel_complete hb)

theorem ltScan_no_source {r : T → T → Option Bool} {lo hi : T} :
    ∀ l : List (T × T), (∀ p, p ∈ l → p.1 ≠ lo) →
      ltScan r lo hi l = some false := by
  intro l
  induction l with
  | nil => intro _; rfl
  | cons p rest ih =>
    intro hno
    have h1 : p.1 ≠ lo := hno p (List.mem_cons_self p rest)
    simp only [ltScan, if_neg h1]
    exact ih (fun q hq => hno q (List.mem_cons_of_mem p hq))

theorem checkScan_true {ps : List (T × T)} {n : Nat} :
    ∀ l, checkScan ps n l = some true → ∀ p, p ∈ l →
      p.1 ≠ p.2 ∧ ltFuel ps n p.1 p.1 = some false ∧
        ltFuel ps n p.2 p.2 = some false := by
  intro l
  induction l with
  | nil => intro _ p hp; simp at hp
  | cons q rest ih =>
    intro h p hp
    by_cases hq : q.1 = q.2
    · simp [checkScan, if_pos hq] at h
    · simp only [checkScan, if_neg hq] at h
      cases h1 : ltFuel ps n q.1 q.1 with
      | none => rw [h1] at h; simp at h
      | some c1 =>
        rw [h1] at h
        cases c1 with
        | true => simp at h
        | false =>
          cases h2 : ltFuel ps n q.2 q.2 with
          | none => rw [h2] at h; simp at h
          | some c2 =>
            rw [h2] at h
            cases c2 with
            | true => simp at h
            | false =>
              rcases List.mem_cons.mp hp with rfl | hp'
              · exact ⟨hq, h1, h2⟩
              · exact ih h p hp'

theorem check_true_acyclic {ps : List (T × T)} {n : Nat}
    (h : checkScan ps n ps = some true) : Acyclic ps := by
  intro v hv
  obtain ⟨p, hp, hp1, hcase⟩ := chases_iff.mp hv
  obtain ⟨hne, h1, h2⟩ := checkScan_true _ h p hp
  rcases hcase with h3 | h3
  · exact hne (by rw [hp1, h3])
  · have hedge : (v, p.2) ∈ ps := by rw [← hp1]; exact hp
    exact ltFuel_complete h2 (chases_trans h3 (Chases.found hedge))

theorem pairAdd_ok {s s' : PairPartOrd T} {lo hi : T} {n : Nat}
    (h : s.add lo hi n = some (Except.ok s')) :
    (lo = hi ∧ s' = s) ∨
      (lo ≠ hi ∧ s'.pairs = s.pairs ++ [(lo, hi)] ∧
        checkScan (s.pairs ++ [(lo, hi)]) n (s.pairs ++ [(lo, hi)]) =
          some true) := by
  by_cases he : lo = hi
  · refine Or.inl ⟨he, ?_⟩
    simp only [PairPartOrd.add, if_pos he, Option.some.injEq,
      Except.ok.injEq] at h
    exact h.symm
  · simp only [PairPartOrd.add, if_neg he] at h
    cases hc : PairPartOrd.valid ⟨s.pairs ++ [(lo, hi)]⟩ n with
    | none => rw [hc] at h; simp at h
    | some c =>
      rw [hc] at h
      cases c with
      | true =>
        simp only [Option.some.injEq, Except.ok.injEq] at h
        refine Or.inr ⟨he, ?_, hc⟩
        rw [← h]
      | false => simp at h

theorem PairPartOrd.reachableVia_pairs {tr : List (T × T)}
    {s : PairPartOrd T} (h : PairPartOrd.ReachableVia tr s) :
    s.pairs = tr.filter (fun p => !(p.1 == p.2)) := by
  induction h with
  | nil => rfl
  | snoc h hadd ih =>
    obtain ⟨n, hn⟩ := hadd
    rcases pairAdd_ok hn with ⟨rfl, rfl⟩ | ⟨hne, hps, -⟩
    · rw [List.filter_append, ih]
      simp
    · rw [hps, ih, List.filter_append]
      simp [hne]

theorem PairPartOrd.reachable_acyclic {s : PairPartOrd T}
    (h : s.Reachable) : Acyclic s.pairs := by
  obtain ⟨tr, h⟩ := h
  induction h with
  | nil =>
    intro v hv
    cases hv with
    | found h => simp [PairPartOrd.empty] at h
    | step h _ => simp [PairPartOrd.empty] at h
  | snoc h hadd ih =>
    obtain ⟨n, hn⟩ := hadd
    rcases pairAdd_ok hn with ⟨-, rfl⟩ | ⟨-, hps, hchk⟩
    · exact ih
    · rw [hps]
      exact check_true_acyclic hchk

theorem PairPartOrd.le_total_of_acyclic {s : PairPartOrd T}
    (hac : Acyclic s.pairs) (x y : T) :
    ∃ n b, s.le x y n = some b ∧
      (b = true ↔ (x = y ∨ Chases s.pairs x y)) := by
  by_cases hxy : x = y
  · exact ⟨0, true, by simp [PairPartOrd.le, hxy], by simp [hxy]⟩
  · obtain ⟨n, b, hb, hiff⟩ := ltFuel_total hac x y
    refine ⟨n, b, ?_, ?_⟩
    · simpa [PairPartOrd.le, PairPartOrd.lt, hxy] using hb
    · rw [hiff]
      simp [hxy]

end Pairs

/-- Error type of the graph representation: daggy WouldCycle<()>,
carrying only the rejected edge weight (). -/
inductive WouldCycle : Type
  | mk
deriving DecidableEq

/-- DAG-backed representation (struct DagPartOrd in dag.rs).  The daggy
Dag<T, ()> is embedded as the list of node labels (position = the daggy
NodeIndex, assigned in insertion order) plus the list of directed edges
between indices; ids is the HashMap from element to NodeIndex, embedded
as an association list with the newest binding in front (a key is only
inserted when absent, so every key occurs once). -/
structure DagPartOrd (T : Type) where
  dagNodes : List T
  dagEdges : List (Nat × Nat)
  ids : List (T × Nat)
deriving DecidableEq

/-- Exact reachability between node indices.  On acyclic edge lists (the
only ones daggy ever stores) every path has at most es.length edges, so
fuel es.length decides reachability (dagReachB_complete below).  This
models both the petgraph Dfs visit used by lt and the daggy would-cycle
test used by add_edge, which dag.rs treats as correct reachability
primitives. -/
def dagReachB (es : List (Nat × Nat)) (a b : Nat) : Bool :=
  reachN es es.length a b

theorem dagReachB_sound {es : List (Nat × Nat)} {a b : Nat}
    (h : dagReachB es a b = true) : Reach es a b := reachN_sound h

theorem dagReachB_complete {es : List (Nat × Nat)} {a b : Nat}
    (hac : Acyclic es) (h : Reach es a b) : dagReachB es a b = true :=
  reachN_complete (depthBound_of_acyclic hac a) h

theorem dagReachB_false {es : List (Nat × Nat)} {a b : Nat}
    (hac : Acyclic es) (h : dagReachB es a b = false) : ¬ Reach es a b := by
  intro hr
  rw [dagReachB_complete hac hr] at h
  cases h

theorem dagReachB_edge {es : List (Nat × Nat)} {a b : Nat}
    (h : (a, b) ∈ es) : dagReachB es a b = true := by
  obtain ⟨n, hn⟩ : ∃ n, es.length = n + 1 :=
    ⟨es.length - 1, by have := List.length_pos.mpr (List.ne_nil_of_mem h); omega⟩
  rw [dagReachB, hn, reachN_succ]
  simp only [Bool.or_eq_true, List.any_eq_true, Bool.and_eq_true]
  exact Or.inr ⟨(a, b), h, by simp, by simp [reachN_refl]⟩

section Dag

variable {T : Type} [DecidableEq T]

/-- HashMap::get on the identity index. -/
def lookupId : List (T × Nat) → T → Option Nat
  | [], _ => none
  | p :: rest, x => if p.1 = x then some p.2 else lookupId rest x

/-- DagPartOrd::empty. -/
def DagPartOrd.empty : DagPartOrd T := ⟨[], [], []⟩

/-- Interning of one endpoint inside DagPartOrd::add: HashMap::get, and
on a miss Dag::add_node followed by HashMap::insert of the fresh index. -/
def ensureId (s : DagPartOrd T) (x : T) : Nat × DagPartOrd T :=
  match lookupId s.ids x with
  | some i => (i, s)
  | none =>
    (s.dagNodes.length,
      ⟨s.dagNodes ++ [x], s.dagEdges, (x, s.dagNodes.length) :: s.ids⟩)

/-- DagPartOrd::add: elide self-pairs, intern both endpoints, then daggy
add_edge, which fails exactly when the new edge would close a cycle,
i.e. when hi's node already reaches lo's node; on failure no edge is
added and the consumed instance is dropped. -/
def DagPartOrd.add (s : DagPartOrd T) (lo hi : T) :
    Except WouldCycle (DagPartOrd T) :=
  if lo = hi then Except.ok s
  else
    let r1 := ensureId s lo
    let r2 := ensureId r1.2 hi
    if dagReachB r2.2.dagEdges r2.1 r1.1 then Except.error WouldCycle.mk
    else
      Except.ok ⟨r2.2.dagNodes, r2.2.dagEdges ++ [(r1.1, r2.1)], r2.2.ids⟩

/-- DagPartOrd::lt: absent elements are incomparable; otherwise a Dfs
from lo's node reports whether hi's node is visited (the start node is
visited first, so equal indices answer true). -/
def DagPartOrd.lt (s : DagPartOrd T) (lo hi : T) : Bool :=
  match lookupId s.ids lo, lookupId s.ids hi with
  | some i, some j => dagReachB s.dagEdges i j
  | _, _ => false

/-- Default method FinPartOrd::le from trait.rs. -/
def DagPartOrd.le (s : DagPartOrd T) (lo hi : T) : Bool :=
  if lo = hi then true else s.lt lo hi

/-- Fold of DagPartOrd::add over a list of declared pairs. -/
def DagPartOrd.addAll :
    DagPartOrd T → List (T × T) → Except WouldCycle (DagPartOrd T)
  | s, [] => Except.ok s
  | s, p :: rest =>
    match s.add p.1 p.2 with
    | Except.ok s' => DagPartOrd.addAll s' rest
    | Except.error e => Except.error e

/-- States of DagPartOrd reachable from empty by the recorded sequence of
successful add calls. -/
inductive DagPartOrd.ReachableVia : List (T × T) → DagPartOrd T → Prop
  | nil : DagPartOrd.ReachableVia [] DagPartOrd.empty
  | snoc {tr : List (T × T)} {s s' : DagPartOrd T} {lo hi : T}
      (h : DagPartOrd.ReachableVia tr s)
      (hadd : s.add lo hi = Except.ok s') :
      DagPartOrd.ReachableVia (tr ++ [(lo, hi)]) s'

/-- A DagPartOrd state reachable from empty by successful add calls. -/
def DagPartOrd.Reachable (s : DagPartOrd T) : Prop :=
  ∃ tr, DagPartOrd.ReachableVia tr s

/-- Invariants of every reachable DagPartOrd state. -/
structure DagInv (s : DagPartOrd T) : Prop where
  keysNodup : (s.ids.map Prod.fst).Nodup
  valsNodup : (s.ids.map Prod.snd).Nodup
  valsLt : ∀ p, p ∈ s.ids → p.2 < s.dagNodes.length
  acyclic : Acyclic s.dagEdges

theorem lookupId_mem {l : List (T × Nat)} {x : T} {i : Nat}
    (h : lookupId l x = some i) : (x, i) ∈ l := by
  induction l with
  | nil => simp [lookupId] at h
  | cons p rest ih =>
    by_cases hp : p.1 = x
    · simp only [lookupId, if_pos hp, Option.some.injEq] at h
      subst hp; subst h
      exact List.mem_cons_self _ _
    · simp only [lookupId, if_neg hp] at h
      exact List.mem_cons_of_mem p (ih h)

theorem lookupId_none_iff {l : List (T × Nat)} {x : T} :
    lookupId l x = none ↔ ∀ p, p ∈ l → p.1 ≠ x := by
  induction l with
  | nil => simp [lookupId]
  | cons p rest ih =>
    by_cases hp : p.1 = x
    · simp [lookupId, if_pos hp, hp]
    · simp [lookupId, if_neg hp, ih, hp]

theorem DagInv.lookup_inj {s : DagPartOrd T} (hinv : DagInv s) {x y : T}
    {i : Nat} (hx : lookupId s.ids x = some i)
    (hy : lookupId s.ids y = some i) : x = y := by
  have hmx := lookupId_mem hx
  have hmy := lookupId_mem hy
  have := List.inj_on_of_nodup_map hinv.valsNodup hmx hmy rfl
  exact congrArg Prod.fst this

theorem ensureId_of_some {s : DagPartOrd T} {x : T} {i : Nat}
    (h : lookupId s.ids x = some i) : ensureId s x = (i, s) := by
  rw [ensureId, h]

theorem ensureId_spec (s : DagPartOrd T) (x : T) :
    (ensureId s x).2.dagEdges = s.dagEdges ∧
    lookupId (ensureId s x).2.ids x = some (ensureId s x).1 ∧
    (∀ y j, lookupId s.ids y = some j →
      lookupId (ensureId s x).2.ids y = some j) ∧
    (∀ y j, lookupId (ensureId s x).2.ids y = some j →
      lookupId s.ids y = some j ∨ y = x) := by
  cases h : lookupId s.ids x with
  | some i =>
    rw [ensureId_of_some h]
    exact ⟨rfl, h, fun y j hy => hy, fun y j hy => Or.inl hy⟩
  | none =>
    rw [ensureId, h]
    refine ⟨rfl, by simp [lookupId], ?_, ?_⟩
    · intro y j hy
      have hxy : x ≠ y := by
        intro he
        rw [← he, h] at hy
        cases hy
      simpa [lookupId, if_neg hxy] using hy
    · intro y j hy
      by_cases hxy : x = y
      · exact Or.inr hxy.symm
      · simp only [lookupId, if_neg hxy] at hy
        exact Or.inl hy

theorem ensureId_inv {s : DagPartOrd T} (hinv : DagInv s) (x : T) :
    DagInv (ensureId s x).2 := by
  cases h : lookupId s.ids x with
  | some i => rw [ensureId_of_some h]; exact hinv
  | none =>
    rw [ensureId, h]
    refine ⟨?_, ?_, ?_, hinv.acyclic⟩
    · have hfresh : ∀ p, p ∈ s.ids → p.1 ≠ x := lookupId_none_iff.mp h
      simp only [List.map_cons, List.nodup_cons]
      refine ⟨?_, hinv.keysNodup⟩
      intro hx
      obtain ⟨p, hp, hpx⟩ := List.mem_map.mp hx
      exact hfresh p hp hpx
    · simp only [List.map_cons, List.nodup_cons]
      refine ⟨?_, hinv.valsNodup⟩
      intro hx
      obtain ⟨p, hp, hpx⟩ := List.mem_map.mp hx
      exact absurd (hpx ▸ hinv.valsLt p hp) (lt_irrefl _)
    · intro p hp
      rcases List.mem_cons.mp hp with rfl | hp'
      · simp
      · have := hinv.valsLt p hp'
        simp only [List.length_append, List.length_singleton]
        omega

theorem DagPartOrd.add_self (s : DagPartOrd T) (x : T) :
    s.add x x = Except.ok s := by
  simp [DagPartOrd.add]

theorem dagAdd_ok {s s' : DagPartOrd T} {lo hi : T} (hne : lo ≠ hi)
    (h : s.add lo hi = Except.ok s') :
    ∃ i j, lookupId s'.ids lo = some i ∧ lookupId s'.ids hi = some j ∧
      s'.dagEdges = s.dagEdges ++ [(i, j)] ∧
      dagReachB s.dagEdges j i = false ∧
      (∀ y k, lookupId s.ids y = some k → lookupId s'.ids y = some k) ∧
      (∀ y k, lookupId s'.ids y = some k →
        lookupId s.ids y = some k ∨ y = lo ∨ y = hi) ∧
      s'.dagNodes = (ensureId (ensureId s lo).2 hi).2.dagNodes ∧
      s'.ids = (ensureId (ensureId s lo).2 hi).2.ids := by
  obtain ⟨he1, hl1, hfwd1, hbwd1⟩ := ensureId_spec s lo
  obtain ⟨he2, hl2, hfwd2, hbwd2⟩ := ensureId_spec (ensureId s lo).2 hi
  simp only [DagPartOrd.add, if_neg hne] at h
  cases hr : dagReachB (ensureId (ensureId s lo).2 hi).2.dagEdges
      (ensureId (ensureId s lo).2 hi).1 (ensureId s lo).1 with
  | true => rw [hr, if_pos rfl] at h; cases h
  | false =>
    rw [hr, if_neg (by simp)] at h
    injection h with h
    refine ⟨(ensureId s lo).1, (ensureId (ensureId s lo).2 hi).1,
      ?_, ?_, ?_, ?_, ?_, ?_, ?_, ?_⟩
    · rw [← h]; exact hfwd2 _ _ hl1
    · rw [← h]; exact hl2
    · rw [← h]
      show (ensureId (ensureId s lo).2 hi).2.dagEdges ++ _ = _
      rw [he2, he1]
    · rw [he2, he1] at hr; exact hr
    · intro y k hy
      rw [← h]
      exact hfwd2 _ _ (hfwd1 _ _ hy)
    · intro y k hy
      rw [← h] at hy
      rcases hbwd2 _ _ hy with hy' | rfl
      · rcases hbwd1 _ _ hy' with hy'' | rfl
        · exact Or.inl hy''
        · exact Or.inr (Or.inl rfl)
      · exact Or.inr (Or.inr rfl)
    · rw [← h]
    · rw [← h]

theorem DagPartOrd.add_inv {s s' : DagPartOrd T} {lo hi : T}
    (hinv : DagInv s) (h : s.add lo hi = Except.ok s') : DagInv s' := by
  by_cases hne : lo = hi
  · subst hne
    rw [DagPartOrd.add_self] at h
    cases h
    exact hinv
  · have hinv2 : DagInv (ensureId (ensureId s lo).2 hi).2 :=
      ensureId_inv (ensureId_inv hinv lo) hi
    obtain ⟨i, j, -, -, hedges, hreach, -, -, hnodes, hids⟩ :=
      dagAdd_ok hne h
    obtain ⟨he1, -, -, -⟩ := ensureId_spec s lo
    obtain ⟨he2, -, -, -⟩ := ensureId_spec (ensureId s lo).2 hi
    refine ⟨?_, ?_, ?_, ?_⟩
    · rw [hids]; exact hinv2.keysNodup
    · rw [hids]; exact hinv2.valsNodup
    · intro p hp
      rw [hids] at hp
      rw [hnodes]
      exact hinv2.valsLt p hp
    · rw [hedges]
      have hac : Acyclic s.dagEdges := hinv.acyclic
      exact acyclic_append hac (dagReachB_false hac hreach)

theorem DagPartOrd.reachable_inv {s : DagPartOrd T} (h : s.Reachable) :
    DagInv s := by
  obtain ⟨tr, h⟩ := h
  induction h with
  | nil =>
    refine ⟨?_, ?_, ?_, ?_⟩
    · simp [DagPartOrd.empty]
    · simp [DagPartOrd.empty]
    · intro p hp; simp [DagPartOrd.empty] at hp
    · intro v hv
      cases hv with
      | found h => simp [DagPartOrd.empty] at h
      | step h _ => simp [DagPartOrd.empty] at h
  | snoc _ hadd ih => exact DagPartOrd.add_inv ih hadd

theorem DagPartOrd.reachableVia_keys {tr : List (T × T)} {s : DagPartOrd T}
    (h : DagPartOrd.ReachableVia tr s) {u : T}
    (hu : ∀ p, p ∈ tr → p.1 ≠ u ∧ p.2 ≠ u) : lookupId s.ids u = none := by
  induction h with
  | nil => rfl
  | snoc hvia hadd ih =>
    rename_i tr s s' lo hi
    have hu' : ∀ p, p ∈ tr → p.1 ≠ u ∧ p.2 ≠ u :=
      fun p hp => hu p (List.mem_append_left _ hp)
    have hlohi := hu (lo, hi) (List.mem_append_right _ (List.mem_singleton.mpr rfl))
    by_cases hne : lo = hi
    · subst hne
      rw [DagPartOrd.add_self] at hadd
      cases hadd
      exact ih hu'
    · obtain ⟨i, j, -, -, -, -, -, hbwd, -, -⟩ := dagAdd_ok hne hadd
      cases hk : lookupId s'.ids u with
      | none => rfl
      | some k =>
        rcases hbwd _ _ hk with hk' | rfl | rfl
        · rw [ih hu'] at hk'; cases hk'
        · exact absurd rfl hlohi.1
        · exact absurd rfl hlohi.2

end Dag

section Cross

variable {T : Type} [DecidableEq T]

/-- Correspondence between a PairPartOrd state and a DagPartOrd state
built by the same sequence of successful add calls. -/
structure Corr (sp : PairPartOrd T) (sd : DagPartOrd T) : Prop where
  keyMention : ∀ x, (lookupId sd.ids x).isSome ↔ MentionedIn sp.pairs x
  edgeFwd : ∀ a b, (a, b) ∈ sp.pairs →
    ∃ i j, lookupId sd.ids a = some i ∧ lookupId sd.ids b = some j ∧
      (i, j) ∈ sd.dagEdges
  edgeBwd : ∀ i j, (i, j) ∈ sd.dagEdges →
    ∃ a b, lookupId sd.ids a = some i ∧ lookupId sd.ids b = some j ∧
      (a, b) ∈ sp.pairs

theorem corr_empty : Corr (PairPartOrd.empty : PairPartOrd T) DagPartOrd.empty := by
  refine ⟨?_, ?_, ?_⟩
  · intro x
    simp [DagPartOrd.empty, lookupId, PairPartOrd.empty, MentionedIn]
  · intro a b h
    simp [PairPartOrd.empty] at h
  · intro i j h
    simp [DagPartOrd.empty] at h

theorem corr_step {sp sp' : PairPartOrd T} {sd sd' : DagPartOrd T}
    {lo hi : T} {n : Nat} (hc : Corr sp sd)
    (hp : sp.add lo hi n = some (Except.ok sp'))
    (hd : sd.add lo hi = Except.ok sd') : Corr sp' sd' := by
  by_cases hne : lo = hi
  · subst hne
    have h1 : sp' = sp := by
      rcases pairAdd_ok hp with ⟨-, rfl⟩ | ⟨hne', -, -⟩
      · rfl
      · exact absurd rfl hne'
    have h2 : sd' = sd := by
      rw [DagPartOrd.add_self] at hd
      injection hd with hd
      exact hd.symm
    rw [h1, h2]
    exact hc
  · rcases pairAdd_ok hp with ⟨he, -⟩ | ⟨-, hps, -⟩
    · exact absurd he hne
    · obtain ⟨i, j, hl, hh, hedges, -, hfwd, hbwd, -, -⟩ :=
        dagAdd_ok hne hd
      refine ⟨?_, ?_, ?_⟩
      · intro x
        rw [hps]
        constructor
        · intro hx
          obtain ⟨k, hk⟩ := Option.isSome_iff_exists.mp hx
          rcases hbwd _ _ hk with hk' | h | h
          · obtain ⟨p, hp', hx'⟩ :=
              (hc.keyMention x).mp (Option.isSome_iff_exists.mpr ⟨k, hk'⟩)
            exact ⟨p, List.mem_append_left _ hp', hx'⟩
          · exact ⟨(lo, hi), List.mem_append_right _ (by simp), Or.inl h.symm⟩
          · exact ⟨(lo, hi), List.mem_append_right _ (by simp), Or.inr h.symm⟩
        · rintro ⟨p, hp', hx⟩
          rcases List.mem_append.mp hp' with hp'' | hp''
          · obtain ⟨k, hk⟩ := Option.isSome_iff_exists.mp
              ((hc.keyMention x).mpr ⟨p, hp'', hx⟩)
            exact Option.isSome_iff_exists.mpr ⟨k, hfwd _ _ hk⟩
          · simp only [List.mem_singleton] at hp''
            subst hp''
            rcases hx with h | h
            · rw [← h]
              exact Option.isSome_iff_exists.mpr ⟨i, hl⟩
            · rw [← h]
              exact Option.isSome_iff_exists.mpr ⟨j, hh⟩
      · intro a b hab
        rw [hps] at hab
        rw [hedges]
        rcases List.mem_append.mp hab with hab' | hab'
        · obtain ⟨i0, j0, ha, hb, hedge⟩ := hc.edgeFwd _ _ hab'
          exact ⟨i0, j0, hfwd _ _ ha, hfwd _ _ hb, List.mem_append_left _ hedge⟩
        · simp only [List.mem_singleton, Prod.mk.injEq] at hab'
          obtain ⟨rfl, rfl⟩ := hab'
          exact ⟨i, j, hl, hh, List.mem_append_right _ (by simp)⟩
      · intro i0 j0 hij
        rw [hedges] at hij
        rw [hps]
        rcases List.mem_append.mp hij with hij' | hij'
        · obtain ⟨a, b, ha, hb, hpair⟩ := hc.edgeBwd _ _ hij'
          exact ⟨a, b, hfwd _ _ ha, hfwd _ _ hb, List.mem_append_left _ hpair⟩
        · simp only [List.mem_singleton, Prod.mk.injEq] at hij'
          obtain ⟨rfl, rfl⟩ := hij'
          exact ⟨lo, hi, hl, hh, List.mem_append_right _ (by simp)⟩

theorem pairAddAll_cons {n : Nat} {s : PairPartOrd T} {q : T × T}
    {rest : List (T × T)} {r : PairPartOrd T}
    (h : PairPartOrd.addAll n s (q :: rest) = some (Except.ok r)) :
    ∃ s1, s.add q.1 q.2 n = some (Except.ok s1) ∧
      PairPartOrd.addAll n s1 rest = some (Except.ok r) := by
  simp only [PairPartOrd.addAll] at h
  split at h
  · simp at h
  · next s1 heq => exact ⟨s1, heq, h⟩
  · simp at h

theorem dagAddAll_cons {s : DagPartOrd T} {q : T × T}
    {rest : List (T × T)} {r : DagPartOrd T}
    (h : DagPartOrd.addAll s (q :: rest) = Except.ok r) :
    ∃ s1, s.add q.1 q.2 = Except.ok s1 ∧
      DagPartOrd.addAll s1 rest = Except.ok r := by
  simp only [DagPartOrd.addAll] at h
  split at h
  · next s1 heq => exact ⟨s1, heq, h⟩
  · simp at h

theorem pairAddAll_nil_ok {n : Nat} {s r : PairPartOrd T}
    (h : PairPartOrd.addAll n s [] = some (Except.ok r)) : r = s := by
  simp only [PairPartOrd.addAll, Option.some.injEq, Except.ok.injEq] at h
  exact h.symm

theorem dagAddAll_nil_ok {s r : DagPartOrd T}
    (h : DagPartOrd.addAll s [] = Except.ok r) : r = s := by
  simp only [DagPartOrd.addAll] at h
  injection h with h
  exact h.symm

theorem pairAddAll_reachableVia {n : Nat} :
    ∀ (seq tr : List (T × T)) (s s' : PairPartOrd T),
      PairPartOrd.ReachableVia tr s →
      PairPartOrd.addAll n s seq = some (Except.ok s') →
      PairPartOrd.ReachableVia (tr ++ seq) s' := by
  intro seq
  induction seq with
  | nil =>
    intro tr s s' hvia h
    obtain rfl := pairAddAll_nil_ok h
    simpa using hvia
  | cons q rest ih =>
    intro tr s s' hvia h
    obtain ⟨s1, hq, hrest⟩ := pairAddAll_cons h
    have hvia1 : PairPartOrd.ReachableVia (tr ++ [q]) s1 :=
      PairPartOrd.ReachableVia.snoc hvia ⟨n, hq⟩
    have := ih (tr ++ [q]) s1 s' hvia1 hrest
    simpa [List.append_assoc] using this

theorem dagAddAll_reachableVia :
    ∀ (seq tr : List (T × T)) (s s' : DagPartOrd T),
      DagPartOrd.ReachableVia tr s →
      DagPartOrd.addAll s seq = Except.ok s' →
      DagPartOrd.ReachableVia (tr ++ seq) s' := by
  intro seq
  induction seq with
  | nil =>
    intro tr s s' hvia h
    obtain rfl := dagAddAll_nil_ok h
    simpa using hvia
  | cons q rest ih =>
    intro tr s s' hvia h
    obtain ⟨s1, hq, hrest⟩ := dagAddAll_cons h
    have hvia1 : DagPartOrd.ReachableVia (tr ++ [q]) s1 :=
      DagPartOrd.ReachableVia.snoc hvia hq
    have := ih (tr ++ [q]) s1 s' hvia1 hrest
    simpa [List.append_assoc] using this

theorem corr_addAll {n : Nat} :
    ∀ (seq : List (T × T)) (sp sp' : PairPartOrd T) (sd sd' : DagPartOrd T),
      Corr sp sd →
      PairPartOrd.addAll n sp seq = some (Except.ok sp') →
      DagPartOrd.addAll sd seq = Except.ok sd' → Corr sp' sd' := by
  intro seq
  induction seq with
  | nil =>
    intro sp sp' sd sd' hc hp hd
    obtain rfl := pairAddAll_nil_ok hp
    obtain rfl := dagAddAll_nil_ok hd
    exact hc
  | cons q rest ih =>
    intro sp sp' sd sd' hc hp hd
    obtain ⟨sp1, hq, hrest⟩ := pairAddAll_cons hp
    obtain ⟨sd1, hq', hrest'⟩ := dagAddAll_cons hd
    exact ih sp1 sp' sd1 sd' (corr_step hc hq hq') hrest hrest'

theorem corr_chases_fwd {sp : PairPartOrd T} {sd : DagPartOrd T}
    (hc : Corr sp sd) {x y : T} (h : Chases sp.pairs x y) :
    ∀ i j, lookupId sd.ids x = some i → lookupId sd.ids y = some j →
      Chases sd.dagEdges i j := by
  induction h with
  | found hmem =>
    intro i j hx hy
    obtain ⟨i', j', hx', hy', hedge⟩ := hc.edgeFwd _ _ hmem
    rw [hx] at hx'
    rw [hy] at hy'
    injection hx' with hx'
    injection hy' with hy'
    subst hx'
    subst hy'
    exact Chases.found hedge
  | step hmem _ ih =>
    intro i j hx hy
    obtain ⟨i', k, hx', hm, hedge⟩ := hc.edgeFwd _ _ hmem
    rw [hx] at hx'
    injection hx' with hx'
    subst hx'
    exact Chases.step hedge (ih k j hm hy)

theorem corr_chases_bwd {sp : PairPartOrd T} {sd : DagPartOrd T}
    (hc : Corr sp sd) (hinv : DagInv sd) {i j : Nat}
    (h : Chases sd.dagEdges i j) :
    ∀ x y, lookupId sd.ids x = some i → lookupId sd.ids y = some j →
      Chases sp.pairs x y := by
  induction h with
  | found hmem =>
    intro x y hx hy
    obtain ⟨a, b, ha, hb, hpair⟩ := hc.edgeBwd _ _ hmem
    obtain rfl := hinv.lookup_inj ha hx
    obtain rfl := hinv.lookup_inj hb hy
    exact Chases.found hpair
  | step hmem _ ih =>
    intro x y hx hy
    obtain ⟨a, m, ha, hm, hpair⟩ := hc.edgeBwd _ _ hmem
    obtain rfl := hinv.lookup_inj ha hx
    exact Chases.step hpair (ih m y hm hy)

theorem corr_le_agree {sp : PairPartOrd T} {sd : DagPartOrd T}
    (hc : Corr sp sd) (hinv : DagInv sd) (hac : Acyclic sp.pairs)
    (x y : T) : ∃ m, sp.le x y m = some (sd.le x y) := by
  by_cases hxy : x = y
  · subst hxy
    exact ⟨0, by simp [PairPartOrd.le, DagPartOrd.le]⟩
  · obtain ⟨n, b, hb, hiff⟩ := ltFuel_total hac x y
    refine ⟨n, ?_⟩
    have hle : sp.le x y n = some b := by
      simp only [PairPartOrd.le, if_neg hxy]
      exact hb
    rw [hle]
    congr 1
    rw [DagPartOrd.le, if_neg hxy]
    cases hlx : lookupId sd.ids x with
    | none =>
      have hnch : ¬ Chases sp.pairs x y := by
        intro hch
        have hm := (hc.keyMention x).mpr (chases_mentioned_left hch)
        rw [hlx] at hm
        simp at hm
      have hbf : b = false := by
        cases b with
        | false => rfl
        | true => exact absurd (hiff.mp rfl) hnch
      rw [hbf]
      simp [DagPartOrd.lt, hlx]
    | some i =>
      cases hly : lookupId sd.ids y with
      | none =>
        have hnch : ¬ Chases sp.pairs x y := by
          intro hch
          have hm := (hc.keyMention y).mpr (chases_mentioned_right hch)
          rw [hly] at hm
          simp at hm
        have hbf : b = false := by
          cases b with
          | false => rfl
          | true => exact absurd (hiff.mp rfl) hnch
        rw [hbf]
        simp [DagPartOrd.lt, hlx, hly]
      | some j =>
        have hlt : sd.lt x y = dagReachB sd.dagEdges i j := by
          simp [DagPartOrd.lt, hlx, hly]
        rw [hlt]
        cases hr : dagReachB sd.dagEdges i j with
        | true =>
          rcases reach_iff.mp (dagReachB_sound hr) with rfl | hch
          · exact absurd (hinv.lookup_inj hlx hly) hxy
          · exact hiff.mpr (corr_chases_bwd hc hinv hch x y hlx hly)
        | false =>
          cases b with
          | false => rfl
          | true =>
            have hch := corr_chases_fwd hc (hiff.mp rfl) i j hlx hly
            rw [dagReachB_complete hinv.acyclic hch.to_reach] at hr
            cases hr

end Cross

section Elim

variable {T : Type} [DecidableEq T]

theorem DagPartOrd.lt_true_elim {s : DagPartOrd T} {x y : T}
    (h : s.lt x y = true) :
    ∃ i j, lookupId s.ids x = some i ∧ lookupId s.ids y = some j ∧
      dagReachB s.dagEdges i j = true := by
  cases hx : lookupId s.ids x with
  | none => simp [DagPartOrd.lt, hx] at h
  | some i =>
    cases hy : lookupId s.ids y with
    | none => simp [DagPartOrd.lt, hx, hy] at h
    | some j =>
      refine ⟨i, j, rfl, rfl, ?_⟩
      simpa [DagPartOrd.lt, hx, hy] using h

end Elim

section ConcreteStates

/-- Reachability of the pair state built by add(0,1). -/
theorem via_sp1 :
    PairPartOrd.ReachableVia [((0 : Nat), 1)] ⟨[(0, 1)]⟩ :=
  PairPartOrd.ReachableVia.snoc PairPartOrd.ReachableVia.nil ⟨5, by decide⟩

/-- Reachability of the pair state built by add(0,1); add(1,2). -/
theorem via_sp2 :
    PairPartOrd.ReachableVia [((0 : Nat), 1), (1, 2)] ⟨[(0, 1), (1, 2)]⟩ :=
  PairPartOrd.ReachableVia.snoc via_sp1 ⟨5, by decide⟩

/-- Reachability of the pair state built by add(3,0). -/
theorem via_sp30 :
    PairPartOrd.ReachableVia [((3 : Nat), 0)] ⟨[(3, 0)]⟩ :=
  PairPartOrd.ReachableVia.snoc PairPartOrd.ReachableVia.nil ⟨5, by decide⟩

/-- Reachability of the dag state built by add(0,1). -/
theorem via_sd1 :
    DagPartOrd.ReachableVia [((0 : Nat), 1)]
      ⟨[0, 1], [(0, 1)], [(1, 1), (0, 0)]⟩ :=
  DagPartOrd.ReachableVia.snoc DagPartOrd.ReachableVia.nil (by decide)

/-- Reachability of the dag state built by add(0,1); add(1,2). -/
theorem via_sd2 :
    DagPartOrd.ReachableVia [((0 : Nat), 1), (1, 2)]
      ⟨[0, 1, 2], [(0, 1), (1, 2)], [(2, 2), (1, 1), (0, 0)]⟩ :=
  DagPartOrd.ReachableVia.snoc via_sd1 (by decide)

end ConcreteStates

section Divergence

/-- In the cyclic pair list left by the attempted add(2,1), the recursive
lt queries 1 < 0 and 2 < 0 call each other forever. -/
theorem ltFuel_cyc_a : ∀ n : Nat,
    ltFuel [((0 : Nat), 1), (1, 2), (2, 1)] n 1 0 = none ∧
    ltFuel [((0 : Nat), 1), (1, 2), (2, 1)] n 2 0 = none := by
  intro n
  induction n with
  | zero => exact ⟨rfl, rfl⟩
  | succ n ih =>
    constructor
    · show ltScan _ 1 0 _ = none
      simp [ltScan, ih.2]
    · show ltScan _ 2 0 _ = none
      simp [ltScan, ih.1]

/-- The validation query lt(0,0) run by check on that cyclic pair list
diverges at every recursion depth. -/
theorem ltFuel_cyc_a00 : ∀ n : Nat,
    ltFuel [((0 : Nat), 1), (1, 2), (2, 1)] n 0 0 = none := by
  intro n
  cases n with
  | zero => rfl
  | succ n =>
    show ltScan _ 0 0 _ = none
    simp [ltScan, (ltFuel_cyc_a n).1]

/-- In the cyclic pair list left by the attempted add(1,0), the recursive
lt queries 0 < 3 and 1 < 3 call each other forever. -/
theorem ltFuel_cyc_b : ∀ n : Nat,
    ltFuel [((3 : Nat), 0), (0, 1), (1, 0)] n 0 3 = none ∧
    ltFuel [((3 : Nat), 0), (0, 1), (1, 0)] n 1 3 = none := by
  intro n
  induction n with
  | zero => exact ⟨rfl, rfl⟩
  | succ n ih =>
    constructor
    · show ltScan _ 0 3 _ = none
      simp [ltScan, ih.2]
    · show ltScan _ 1 3 _ = none
      simp [ltScan, ih.1]

/-- The validation query lt(3,3) run by check on that cyclic pair list
diverges at every recursion depth. -/
theorem ltFuel_cyc_b33 : ∀ n : Nat,
    ltFuel [((3 : Nat), 0), (0, 1), (1, 0)] n 3 3 = none := by
  intro n
  cases n with
  | zero => rfl
  | succ n =>
    show ltScan _ 3 3 _ = none
    simp [ltScan, (ltFuel_cyc_b n).1]

end Divergence

section Claims

/-- C1: for both representations, in every state reachable from empty by
successful add calls, le is antisymmetric: if le(x,y) and le(y,x) both
return Ok(true), then x = y.  For PairPartOrd, returning Ok(true) means
the recursion finishes with value true at some fuel. -/
theorem C1_antisymmetry {T : Type} [DecidableEq T]
    (sp : PairPartOrd T) (sd : DagPartOrd T)
    (hrp : sp.Reachable) (hrd : sd.Reachable) (x y : T) :
    ((∃ n, sp.le x y n = some true) → (∃ m, sp.le y x m = some true) →
      x = y) ∧
    (sd.le x y = true → sd.le y x = true → x = y) := by
  constructor
  · rintro ⟨n, hn⟩ ⟨m, hm⟩
    by_contra hxy
    have hac := PairPartOrd.reachable_acyclic hrp
    rw [PairPartOrd.le, if_neg hxy] at hn
    rw [PairPartOrd.le, if_neg (fun h => hxy h.symm)] at hm
    exact hac x (chases_trans (ltFuel_sound hn) (ltFuel_sound hm))
  · intro h1 h2
    by_contra hxy
    have hinv := DagPartOrd.reachable_inv hrd
    rw [DagPartOrd.le, if_neg hxy] at h1
    rw [DagPartOrd.le, if_neg (fun h => hxy h.symm)] at h2
    obtain ⟨i, j, hix, hjy, hr1⟩ := DagPartOrd.lt_true_elim h1
    obtain ⟨j', i', hjy', hix', hr2⟩ := DagPartOrd.lt_true_elim h2
    rw [hjy] at hjy'
    injection hjy' with hjy'
    subst hjy'
    rw [hix] at hix'
    injection hix' with hix'
    subst hix'
    rcases reach_iff.mp (dagReachB_sound hr1) with rfl | hc1
    · exact hxy (hinv.lookup_inj hix hjy)
    · rcases reach_iff.mp (dagReachB_sound hr2) with he | hc2
      · subst he
        exact hxy (hinv.lookup_inj hix hjy)
      · exact hinv.acyclic i (chases_trans hc1 hc2)

theorem C1_witness : (0 : Nat) = 0 ∧ (0 : Nat) = 0 :=
  ⟨(C1_antisymmetry (⟨[(0, 1)]⟩ : PairPartOrd Nat)
      ⟨[0, 1], [(0, 1)], [(1, 1), (0, 0)]⟩
      ⟨_, via_sp1⟩ ⟨_, via_sd1⟩ 0 0).1 ⟨1, by decide⟩ ⟨1, by decide⟩,
   (C1_antisymmetry (⟨[(0, 1)]⟩ : PairPartOrd Nat)
      ⟨[0, 1], [(0, 1)], [(1, 1), (0, 0)]⟩
      ⟨_, via_sp1⟩ ⟨_, via_sd1⟩ 0 0).2 (by decide) (by decide)⟩

/-- C2: the claim that every operation of both representations is a
finite computation fails for PairPartOrd.  The state with pairs
[(0,1),(1,2)] is reachable, yet add(2,1) never finishes at any recursion
depth: check runs lt(0,0) on the cyclic hypothetical state
[(0,1),(1,2),(2,1)], and lt, having no visited set, chases 1 and 2 in a
loop forever. -/
theorem C2_pairs_add_diverges :
    PairPartOrd.Reachable (⟨[((0 : Nat), 1), (1, 2)]⟩ : PairPartOrd Nat) ∧
    ∀ n : Nat,
      PairPartOrd.add (⟨[((0 : Nat), 1), (1, 2)]⟩ : PairPartOrd Nat) 2 1 n =
        none := by
  constructor
  · exact ⟨_, via_sp2⟩
  · intro n
    have hchk :
        PairPartOrd.valid
          (⟨[((0 : Nat), 1), (1, 2), (2, 1)]⟩ : PairPartOrd Nat) n = none := by
      show checkScan _ n _ = none
      simp [checkScan, ltFuel_cyc_a00 n]
    simp [PairPartOrd.add, hchk]

/-- C3 counterexample: in the reachable pair state [(0,1),(1,2)] the fact
(0,2) is already derivable by transitivity (le returns Ok(true)), yet
add(0,2) succeeds and stores a third pair, so a derivable fact is stored
explicitly, contradicting the claim that only covering pairs are ever
stored. -/
theorem C3_counterexample :
    PairPartOrd.Reachable (⟨[((0 : Nat), 1), (1, 2)]⟩ : PairPartOrd Nat) ∧
    PairPartOrd.le (⟨[((0 : Nat), 1), (1, 2)]⟩ : PairPartOrd Nat) 0 2 5 =
      some true ∧
    PairPartOrd.add (⟨[((0 : Nat), 1), (1, 2)]⟩ : PairPartOrd Nat) 0 2 5 =
      some (Except.ok ⟨[(0, 1), (1, 2), (0, 2)]⟩) ∧
    (⟨[((0 : Nat), 1), (1, 2), (0, 2)]⟩ : PairPartOrd Nat).pairs.length ≠
      (⟨[((0 : Nat), 1), (1, 2)]⟩ : PairPartOrd Nat).pairs.length :=
  ⟨⟨_, via_sp2⟩, by decide, by decide, by decide⟩

/-- C3 amended: no derived pair or edge is ever stored spontaneously: a
successful add(lo,hi) leaves the store unchanged when lo = hi and
otherwise appends exactly the declared pair (one edge); but add performs
no redundancy check, so a successful add of an already-derivable pair is
stored as well. -/
theorem C3_amended {T : Type} [DecidableEq T]
    (sp sp' : PairPartOrd T) (sd sd' : DagPartOrd T) (lo hi : T) (n : Nat)
    (hp : sp.add lo hi n = some (Except.ok sp'))
    (hd : sd.add lo hi = Except.ok sd') :
    ((lo = hi ∧ sp' = sp) ∨
      (lo ≠ hi ∧ sp'.pairs = sp.pairs ++ [(lo, hi)])) ∧
    ((lo = hi ∧ sd' = sd) ∨
      (lo ≠ hi ∧ ∃ i j, sd'.dagEdges = sd.dagEdges ++ [(i, j)])) := by
  constructor
  · rcases pairAdd_ok hp with ⟨h1, h2⟩ | ⟨h1, h2, -⟩
    · exact Or.inl ⟨h1, h2⟩
    · exact Or.inr ⟨h1, h2⟩
  · by_cases hne : lo = hi
    · subst hne
      rw [DagPartOrd.add_self] at hd
      injection hd with hd
      exact Or.inl ⟨rfl, hd.symm⟩
    · obtain ⟨i, j, -, -, hedges, -, -, -, -, -⟩ := dagAdd_ok hne hd
      exact Or.inr ⟨hne, i, j, hedges⟩

theorem C3_amended_witness :
    (((1 : Nat) = 2 ∧
        (⟨[((0 : Nat), 1), (1, 2)]⟩ : PairPartOrd Nat) = ⟨[(0, 1)]⟩) ∨
      ((1 : Nat) ≠ 2 ∧
        (⟨[((0 : Nat), 1), (1, 2)]⟩ : PairPartOrd Nat).pairs =
          (⟨[((0 : Nat), 1)]⟩ : PairPartOrd Nat).pairs ++ [(1, 2)])) ∧
    (((1 : Nat) = 2 ∧
        (⟨[0, 1, 2], [(0, 1), (1, 2)], [(2, 2), (1, 1), (0, 0)]⟩ :
          DagPartOrd Nat) = ⟨[0, 1], [(0, 1)], [(1, 1), (0, 0)]⟩) ∨
      ((1 : Nat) ≠ 2 ∧ ∃ i j,
        (⟨[0, 1, 2], [(0, 1), (1, 2)], [(2, 2), (1, 1), (0, 0)]⟩ :
          DagPartOrd Nat).dagEdges =
        (⟨[0, 1], [(0, 1)], [(1, 1), (0, 0)]⟩ :
          DagPartOrd Nat).dagEdges ++ [(i, j)])) :=
  C3_amended ⟨[(0, 1)]⟩ ⟨[(0, 1), (1, 2)]⟩
    ⟨[0, 1], [(0, 1)], [(1, 1), (0, 0)]⟩
    ⟨[0, 1, 2], [(0, 1), (1, 2)], [(2, 2), (1, 1), (0, 0)]⟩
    1 2 5 (by decide) (by decide)

/-- C4: the claim that after a successful add(x,y) with x and y distinct
a subsequent add(y,x) returns an error fails for PairPartOrd.  From the
reachable state [(3,0)], add(0,1) succeeds; the subsequent add(1,0)
neither succeeds nor errors: check runs lt(3,3) on the cyclic
hypothetical state [(3,0),(0,1),(1,0)] and recurses forever between the
queries 0 < 3 and 1 < 3. -/
theorem C4_pairs_reverse_add_diverges :
    PairPartOrd.Reachable (⟨[((3 : Nat), 0)]⟩ : PairPartOrd Nat) ∧
    PairPartOrd.add (⟨[((3 : Nat), 0)]⟩ : PairPartOrd Nat) 0 1 5 =
      some (Except.ok ⟨[(3, 0), (0, 1)]⟩) ∧
    ∀ n : Nat,
      PairPartOrd.add (⟨[((3 : Nat), 0), (0, 1)]⟩ : PairPartOrd Nat) 1 0 n =
        none := by
  refine ⟨⟨_, via_sp30⟩, by decide, ?_⟩
  intro n
  have hchk :
      PairPartOrd.valid
        (⟨[((3 : Nat), 0), (0, 1), (1, 0)]⟩ : PairPartOrd Nat) n = none := by
    show checkScan _ n _ = none
    simp [checkScan, ltFuel_cyc_b33 n]
  simp [PairPartOrd.add, hchk]

/-- C5: insertion soundness: for both representations, in every reachable
state, if add(x,y) returns Ok then le(x,y) on the result returns
Ok(true). -/
theorem C5_insertion_soundness {T : Type} [DecidableEq T]
    (sp sp' : PairPartOrd T) (sd sd' : DagPartOrd T) (x y : T) (n : Nat)
    (hrp : sp.Reachable) (hrd : sd.Reachable)
    (hp : sp.add x y n = some (Except.ok sp'))
    (hd : sd.add x y = Except.ok sd') :
    (∃ m, sp'.le x y m = some true) ∧ sd'.le x y = true := by
  constructor
  · by_cases hxy : x = y
    · exact ⟨0, by simp [PairPartOrd.le, hxy]⟩
    · rcases pairAdd_ok hp with ⟨he, -⟩ | ⟨-, hps, hchk⟩
      · exact absurd he hxy
      · have hac : Acyclic sp'.pairs := by
          rw [hps]; exact check_true_acyclic hchk
        have hmem : (x, y) ∈ sp'.pairs := by rw [hps]; simp
        obtain ⟨m, b, hb, hiff⟩ := PairPartOrd.le_total_of_acyclic hac x y
        have hbt : b = true := hiff.mpr (Or.inr (Chases.found hmem))
        exact ⟨m, by rw [← hbt]; exact hb⟩
  · by_cases hxy : x = y
    · simp [DagPartOrd.le, hxy]
    · obtain ⟨i, j, hl, hh, hedges, -, -, -, -, -⟩ := dagAdd_ok hxy hd
      rw [DagPartOrd.le, if_neg hxy]
      have hmem : (i, j) ∈ sd'.dagEdges := by rw [hedges]; simp
      simp [DagPartOrd.lt, hl, hh, dagReachB_edge hmem]

theorem C5_witness :
    (∃ m, (⟨[((0 : Nat), 1), (1, 2)]⟩ : PairPartOrd Nat).le 1 2 m =
      some true) ∧
    (⟨[0, 1, 2], [(0, 1), (1, 2)], [(2, 2), (1, 1), (0, 0)]⟩ :
      DagPartOrd Nat).le 1 2 = true :=
  C5_insertion_soundness ⟨[(0, 1)]⟩ ⟨[(0, 1), (1, 2)]⟩
    ⟨[0, 1], [(0, 1)], [(1, 1), (0, 0)]⟩
    ⟨[0, 1, 2], [(0, 1), (1, 2)], [(2, 2), (1, 1), (0, 0)]⟩
    1 2 5 ⟨_, via_sp1⟩ ⟨_, via_sd1⟩ (by decide) (by decide)

/-- C6: for both representations, in every reachable state le is
transitive: if le(x,y) and le(y,z) return Ok(true) then so does
le(x,z). -/
theorem C6_transitivity {T : Type} [DecidableEq T]
    (sp : PairPartOrd T) (sd : DagPartOrd T)
    (hrp : sp.Reachable) (hrd : sd.Reachable) (x y z : T) :
    ((∃ n, sp.le x y n = some true) → (∃ n, sp.le y z n = some true) →
      ∃ n, sp.le x z n = some true) ∧
    (sd.le x y = true → sd.le y z = true → sd.le x z = true) := by
  constructor
  · rintro ⟨n1, h1⟩ ⟨n2, h2⟩
    by_cases hxy : x = y
    · subst hxy; exact ⟨n2, h2⟩
    · by_cases hyz : y = z
      · subst hyz; exact ⟨n1, h1⟩
      · rw [PairPartOrd.le, if_neg hxy] at h1
        rw [PairPartOrd.le, if_neg hyz] at h2
        have hc := chases_trans (ltFuel_sound h1) (ltFuel_sound h2)
        have hac := PairPartOrd.reachable_acyclic hrp
        obtain ⟨m, b, hb, hiff⟩ := PairPartOrd.le_total_of_acyclic hac x z
        have hbt : b = true := hiff.mpr (Or.inr hc)
        exact ⟨m, by rw [← hbt]; exact hb⟩
  · intro h1 h2
    by_cases hxy : x = y
    · subst hxy; exact h2
    · by_cases hyz : y = z
      · subst hyz; exact h1
      · rw [DagPartOrd.le, if_neg hxy] at h1
        rw [DagPartOrd.le, if_neg hyz] at h2
        by_cases hxz : x = z
        · simp [DagPartOrd.le, hxz]
        · rw [DagPartOrd.le, if_neg hxz]
          obtain ⟨i, j, hix, hjy, hr1⟩ := DagPartOrd.lt_true_elim h1
          obtain ⟨j', k, hjy', hkz, hr2⟩ := DagPartOrd.lt_true_elim h2
          rw [hjy] at hjy'
          injection hjy' with hjy'
          subst hjy'
          have hinv := DagPartOrd.reachable_inv hrd
          have hR := reach_trans (dagReachB_sound hr1) (dagReachB_sound hr2)
          simp [DagPartOrd.lt, hix, hkz, dagReachB_complete hinv.acyclic hR]

theorem C6_witness :
    (∃ n, (⟨[((0 : Nat), 1), (1, 2)]⟩ : PairPartOrd Nat).le 0 2 n =
      some true) ∧
    (⟨[0, 1, 2], [(0, 1), (1, 2)], [(2, 2), (1, 1), (0, 0)]⟩ :
      DagPartOrd Nat).le 0 2 = true :=
  ⟨(C6_transitivity ⟨[(0, 1), (1, 2)]⟩
      ⟨[0, 1, 2], [(0, 1), (1, 2)], [(2, 2), (1, 1), (0, 0)]⟩
      ⟨_, via_sp2⟩ ⟨_, via_sd2⟩ 0 1 2).1 ⟨1, by decide⟩ ⟨1, by decide⟩,
   (C6_transitivity ⟨[(0, 1), (1, 2)]⟩
      ⟨[0, 1, 2], [(0, 1), (1, 2)], [(2, 2), (1, 1), (0, 0)]⟩
      ⟨_, via_sp2⟩ ⟨_, via_sd2⟩ 0 1 2).2 (by decide) (by decide)⟩

/-- C7: unknown-element neutrality: for both representations, in every
reachable state, if u was never an endpoint of any successful add in the
construction trace and v is any other element, then lt(u,v) and lt(v,u)
both return Ok(false), never an error. -/
theorem C7_unknown_neutral {T : Type} [DecidableEq T]
    (tr1 tr2 : List (T × T)) (sp : PairPartOrd T) (sd : DagPartOrd T)
    (hvp : PairPartOrd.ReachableVia tr1 sp)
    (hvd : DagPartOrd.ReachableVia tr2 sd) (u v : T)
    (hu1 : ∀ p, p ∈ tr1 → p.1 ≠ u ∧ p.2 ≠ u)
    (hu2 : ∀ p, p ∈ tr2 → p.1 ≠ u ∧ p.2 ≠ u) (huv : u ≠ v) :
    ((∃ n, sp.lt u v n = some false) ∧ (∃ n, sp.lt v u n = some false)) ∧
    (sd.lt u v = false ∧ sd.lt v u = false) := by
  have hmem : ∀ p, p ∈ sp.pairs → p ∈ tr1 := by
    intro p hp
    rw [PairPartOrd.reachableVia_pairs hvp] at hp
    exact List.mem_of_mem_filter hp
  refine ⟨⟨?_, ?_⟩, ?_⟩
  · refine ⟨1, ?_⟩
    show ltScan _ u v _ = some false
    exact ltScan_no_source _ (fun p hp => (hu1 p (hmem p hp)).1)
  · have hac := PairPartOrd.reachable_acyclic ⟨_, hvp⟩
    obtain ⟨n, b, hb, hiff⟩ := ltFuel_total hac v u
    have hbf : b = false := by
      cases b with
      | false => rfl
      | true =>
        obtain ⟨p, hp, hp2⟩ := chases_target_mem (hiff.mp rfl)
        exact absurd hp2 (hu1 p (hmem p hp)).2
    exact ⟨n, by rw [← hbf]; exact hb⟩
  · have hnone : lookupId sd.ids u = none :=
      DagPartOrd.reachableVia_keys hvd hu2
    constructor
    · simp [DagPartOrd.lt, hnone]
    · cases hv : lookupId sd.ids v with
      | none => simp [DagPartOrd.lt, hv]
      | some i => simp [DagPartOrd.lt, hv, hnone]

theorem C7_witness :
    ((∃ n, (⟨[((0 : Nat), 1)]⟩ : PairPartOrd Nat).lt 7 0 n = some false) ∧
      (∃ n, (⟨[((0 : Nat), 1)]⟩ : PairPartOrd Nat).lt 0 7 n = some false)) ∧
    ((⟨[0, 1], [(0, 1)], [(1, 1), (0, 0)]⟩ : DagPartOrd Nat).lt 7 0 =
      false ∧
      (⟨[0, 1], [(0, 1)], [(1, 1), (0, 0)]⟩ : DagPartOrd Nat).lt 0 7 =
        false) :=
  C7_unknown_neutral [(0, 1)] [(0, 1)] ⟨[(0, 1)]⟩
    ⟨[0, 1], [(0, 1)], [(1, 1), (0, 0)]⟩ via_sp1 via_sd1 7 0
    (by decide) (by decide) (by decide)

/-- C8: cross-representation equivalence: if the same insertion sequence
succeeds from empty in both representations, then the resulting instances
return the same value for every le query (and in particular the pair
representation's query terminates). -/
theorem C8_cross_rep_equivalence {T : Type} [DecidableEq T]
    (seq : List (T × T)) (n : Nat) (sp : PairPartOrd T) (sd : DagPartOrd T)
    (hp : PairPartOrd.addAll n PairPartOrd.empty seq = some (Except.ok sp))
    (hd : DagPartOrd.addAll DagPartOrd.empty seq = Except.ok sd)
    (x y : T) : ∃ m, sp.le x y m = some (sd.le x y) := by
  have hvp := pairAddAll_reachableVia seq [] _ _
    PairPartOrd.ReachableVia.nil hp
  have hvd := dagAddAll_reachableVia seq [] _ _
    DagPartOrd.ReachableVia.nil hd
  have hac := PairPartOrd.reachable_acyclic ⟨_, hvp⟩
  have hinv := DagPartOrd.reachable_inv ⟨_, hvd⟩
  have hc := corr_addAll seq _ _ _ _ corr_empty hp hd
  exact corr_le_agree hc hinv hac x y

theorem C8_witness :
    ∃ m, (⟨[((0 : Nat), 1), (1, 2)]⟩ : PairPartOrd Nat).le 0 2 m =
      some ((⟨[0, 1, 2], [(0, 1), (1, 2)], [(2, 2), (1, 1), (0, 0)]⟩ :
        DagPartOrd Nat).le 0 2) :=
  C8_cross_rep_equivalence [(0, 1), (1, 2)] 5 ⟨[(0, 1), (1, 2)]⟩
    ⟨[0, 1, 2], [(0, 1), (1, 2)], [(2, 2), (1, 1), (0, 0)]⟩
    (by decide) (by decide) 0 2

/-- C9: self-pair insertion: for every state (not only reachable ones) of
both representations, add(x,x) returns Ok with the state unchanged. -/
theorem C9_self_add_noop {T : Type} [DecidableEq T]
    (sp : PairPartOrd T) (sd : DagPartOrd T) (x : T) (n : Nat) :
    sp.add x x n = some (Except.ok sp) ∧ sd.add x x = Except.ok sd :=
  ⟨by simp [PairPartOrd.add], DagPartOrd.add_self sd x⟩

/-- C10: insertion is monotone: for both representations, in every
reachable state, a successful add(a,b) never falsifies a previously-true
le(x,y). -/
theorem C10_add_monotone {T : Type} [DecidableEq T]
    (sp sp' : PairPartOrd T) (sd sd' : DagPartOrd T) (x y a b : T)
    (n : Nat) (hrp : sp.Reachable) (hrd : sd.Reachable)
    (hp : sp.add a b n = some (Except.ok sp'))
    (hd : sd.add a b = Except.ok sd') :
    ((∃ m, sp.le x y m = some true) → ∃ m, sp'.le x y m = some true) ∧
    (sd.le x y = true → sd'.le x y = true) := by
  constructor
  · rintro ⟨m, hm⟩
    by_cases hxy : x = y
    · exact ⟨0, by simp [PairPartOrd.le, hxy]⟩
    · rw [PairPartOrd.le, if_neg hxy] at hm
      have hch := ltFuel_sound hm
      have hsub : ∀ p, p ∈ sp.pairs → p ∈ sp'.pairs := by
        rcases pairAdd_ok hp with ⟨-, rfl⟩ | ⟨-, hps, -⟩
        · exact fun p hp' => hp'
        · rw [hps]; exact fun p hp' => List.mem_append_left _ hp'
      have hac' : Acyclic sp'.pairs := by
        rcases pairAdd_ok hp with ⟨-, rfl⟩ | ⟨-, hps, hchk⟩
        · exact PairPartOrd.reachable_acyclic hrp
        · rw [hps]; exact check_true_acyclic hchk
      obtain ⟨m', c, hc, hiff⟩ := PairPartOrd.le_total_of_acyclic hac' x y
      have hct : c = true := hiff.mpr (Or.inr (chases_mono hsub hch))
      exact ⟨m', by rw [← hct]; exact hc⟩
  · intro hle
    by_cases hxy : x = y
    · simp [DagPartOrd.le, hxy]
    · rw [DagPartOrd.le, if_neg hxy] at hle ⊢
      obtain ⟨i, j, hix, hjy, hr⟩ := DagPartOrd.lt_true_elim hle
      by_cases hab : a = b
      · subst hab
        rw [DagPartOrd.add_self] at hd
        injection hd with hd
        subst hd
        simp [DagPartOrd.lt, hix, hjy, hr]
      · have hinv' : DagInv sd' :=
          DagPartOrd.add_inv (DagPartOrd.reachable_inv hrd) hd
        obtain ⟨i0, j0, -, -, hedges, -, hfwd, -, -, -⟩ :=
          dagAdd_ok hab hd
        have hRe : Reach sd'.dagEdges i j := by
          refine reach_mono ?_ (dagReachB_sound hr)
          rw [hedges]
          exact fun p hp' => List.mem_append_left _ hp'
        simp [DagPartOrd.lt, hfwd _ _ hix, hfwd _ _ hjy,
          dagReachB_complete hinv'.acyclic hRe]

theorem C10_witness :
    ((∃ m, (⟨[((0 : Nat), 1)]⟩ : PairPartOrd Nat).le 0 1 m = some true) →
      ∃ m, (⟨[((0 : Nat), 1), (1, 2)]⟩ : PairPartOrd Nat).le 0 1 m =
        some true) ∧
    ((⟨[0, 1], [(0, 1)], [(1, 1), (0, 0)]⟩ : DagPartOrd Nat).le 0 1 =
        true →
      (⟨[0, 1, 2], [(0, 1), (1, 2)], [(2, 2), (1, 1), (0, 0)]⟩ :
        DagPartOrd Nat).le 0 1 = true) :=
  C10_add_monotone ⟨[(0, 1)]⟩ ⟨[(0, 1), (1, 2)]⟩
    ⟨[0, 1], [(0, 1)], [(1, 1), (0, 0)]⟩
    ⟨[0, 1, 2], [(0, 1), (1, 2)], [(2, 2), (1, 1), (0, 0)]⟩
    0 1 1 2 5 ⟨_, via_sp1⟩ ⟨_, via_sd1⟩ (by decide) (by decide)

end Claims

end FinPartOrd
